import Mathlib

/-
Verification of the counterexample-to-program subsystem in
src/proof/pdr/pdrContract.c (ABC pdr customization for CPU contract
properties).  The C functions are embedded shallowly: machine ints become
Nat/Int, ABC vectors become Lean lists, fallible operations (assertion
failures, out-of-bounds buffer writes) become Option / explicit outcome
values.  The embedding follows the C source line by line; the few helpers
whose C source lives outside the given tree (literal encoding, Vec_IntEntry,
Pdr_SetCreate) are modelled from the specification and marked as such.
-/

-- ////////////////////////////////////////////////////////////////////////
-- //  Data model and externally given primitives                        //
-- ////////////////////////////////////////////////////////////////////////

/-- Modelled from the spec: a literal packs a variable id with a polarity
bit in the least significant position (Abc_Lit2Var, given primitive). -/
def Abc_Lit2Var (lit : Nat) : Nat := lit / 2

/-- Modelled from the spec: the polarity bit of a literal
(Abc_LitIsCompl, given primitive); true means complemented. -/
def Abc_LitIsCompl (lit : Nat) : Bool := lit % 2 == 1

/-- Modelled from the spec: ABC vector read (Vec_IntEntry, vecInt.h,
outside src/).  The accessor asserts the index is inside the vector
before reading, so an out of range index is an assertion failure
(modelled as none), never a wild read. -/
def Vec_IntEntry (v : List Int) (i : Nat) : Option Int := v[i]?

/-- An assignment set (cube, Pdr_Set_t): the first nLits entries of Lits
form the state segment, the remaining entries form the input segment. -/
structure Pdr_Set_t where
  nLits : Nat
  Lits : List Nat
deriving DecidableEq

/-- The input segment of an assignment set: entries nLits to nTotal - 1. -/
def inputLits (s : Pdr_Set_t) : List Nat := s.Lits.drop s.nLits

/-- The fields of the pdr manager (Pdr_Man_t) that this file touches.
nPis models Saig_ManPiNum(p->pAig), the declared primary input count. -/
structure Pdr_Man_t where
  instLen : Nat
  nInsts : Nat
  vPIs2Imem : List Int
  nPis : Nat
  vReg2Inst : List Int
  vReg2PI : List Int
  vReg2Copy : List Int
  vPis : List Nat
  vDummy : List Nat
  nStartFrame : Nat
deriving DecidableEq

/-- Modelled from the spec: Pdr_SetCreate (pdrUtil.c, outside src/)
builds an assignment set whose state segment holds the first vector and
whose input segment holds the second vector in order. -/
def Pdr_SetCreate (vLits vPiLits : List Nat) : Pdr_Set_t :=
  { nLits := vLits.length, Lits := vLits ++ vPiLits }

-- ////////////////////////////////////////////////////////////////////////
-- //  Pdr_ManLogUnsafeProgram (lines 41-92): the bit-vector renderer    //
-- ////////////////////////////////////////////////////////////////////////

/-- totalBits = p->instLen * p->nInsts (line 49). -/
def totalBits (p : Pdr_Man_t) : Nat := p.instLen * p.nInsts

/-- The character a literal writes (lines 65-66): complemented writes
the character 0, true polarity writes the character 1. -/
def polarityChar (lit : Nat) : Char := if Abc_LitIsCompl lit then '0' else '1'

/-- One iteration of the renderer loop (lines 60-66): look the variable
up in the placement table and store the polarity character into both
buffers at the mapped position.  The C code performs the store with no
bound check; a position outside the allocated buffer (length
totalBits + 1, including the terminator byte) is an out-of-bounds write,
undefined behavior, modelled as none.  A variable id outside the
placement table is an assertion failure inside Vec_IntEntry, also none. -/
def writeLit (p : Pdr_Man_t) (lit : Nat) (bufs : List Char × List Char) :
    Option (List Char × List Char) :=
  match Vec_IntEntry p.vPIs2Imem (Abc_Lit2Var lit) with
  | none => none
  | some imemIdx =>
      if 0 ≤ imemIdx ∧ imemIdx.toNat < bufs.1.length then
        some (bufs.1.set imemIdx.toNat (polarityChar lit),
              bufs.2.set imemIdx.toNat (polarityChar lit))
      else none

/-- The renderer loop over the input segment (lines 58-68). -/
def fillBufs (p : Pdr_Man_t) : List Nat → List Char × List Char →
    Option (List Char × List Char)
  | [], bufs => some bufs
  | lit :: rest, bufs =>
      match writeLit p lit bufs with
      | none => none
      | some bufs2 => fillBufs p rest bufs2

/-- One printed row (lines 71-74): row i prints the buffer positions
i * instLen + instLen - 1 down to i * instLen + 0. -/
def renderRow (instLen : Nat) (buf : List Char) (i : Nat) : List Char :=
  (List.range instLen).map (fun j => buf.getD (i * instLen + (instLen - 1 - j)) '?')

/-- All printed rows of one buffer (lines 70-76 and 81-86). -/
def renderLines (p : Pdr_Man_t) (buf : List Char) : List (List Char) :=
  (List.range p.nInsts).map (renderRow p.instLen buf)

/-- The buffer position printed at row i, column j. -/
def renderPos (instLen i j : Nat) : Nat := i * instLen + (instLen - 1 - j)

/-- Character of a rendering at row i, column j. -/
def rowChar (rows : List (List Char)) (i j : Nat) : Char :=
  (rows.getD i []).getD j '?'

/-- Pdr_ManLogUnsafeProgram (lines 41-92), reduced to its data content:
the pair (concrete rendering rows, generalized rendering rows) written
to the file, or none when the loop hits undefined behavior.  The
concrete buffer starts as totalBits characters 0, the generalized one as
totalBits characters x, each followed by the terminator byte
(lines 50-56); both are filled by the same literal loop and printed row
by row, most significant bit first. -/
def Pdr_ManLogUnsafeProgram (p : Pdr_Man_t) (pProgram : Pdr_Set_t) :
    Option (List (List Char) × List (List Char)) :=
  match fillBufs p (inputLits pProgram)
      (List.replicate (totalBits p) '0' ++ [Char.ofNat 0],
       List.replicate (totalBits p) 'x' ++ [Char.ofNat 0]) with
  | none => none
  | some bufs => some (renderLines p bufs.1, renderLines p bufs.2)

-- ////////////////////////////////////////////////////////////////////////
-- //  Pdr_ManOblToProgram (lines 94-147): resolver and extractor        //
-- ////////////////////////////////////////////////////////////////////////

/-- Whether a frame asserts the reset variable (hard-coded id 1) with
true polarity somewhere in its input segment (lines 109-120). -/
def hasResetTrue (s : Pdr_Set_t) : Bool :=
  (inputLits s).any (fun lit => Abc_Lit2Var lit == 1 && !Abc_LitIsCompl lit)

/-- The chain traversal of lines 106-122: nFrame counts frames,
fLatestRst and pOblProgram hold the current resolution candidate, every
frame asserting reset true overwrites the candidate. -/
def resolveLoop : List Pdr_Set_t → Nat → Nat → Pdr_Set_t → Nat × Pdr_Set_t
  | [], _, fLatestRst, pOblProgram => (fLatestRst, pOblProgram)
  | s :: rest, nFrame, fLatestRst, pOblProgram =>
      if hasResetTrue s then resolveLoop rest (nFrame + 1) nFrame s
      else resolveLoop rest (nFrame + 1) fLatestRst pOblProgram

/-- The start-frame resolver on a nonempty chain: initial candidate is
the chain head at index 0 (lines 96-100). -/
def resolveStartFrame (s : Pdr_Set_t) (rest : List Pdr_Set_t) : Nat × Pdr_Set_t :=
  resolveLoop (s :: rest) 0 0 s

/-- Outcome of the extraction loop of lines 128-144. -/
inductive ExtractStep where
  | okSeq (kept : List Nat)
  | stopResetCompl
  | stopRange
deriving DecidableEq

/-- The extraction loop (lines 128-144) over the resolved frame input
segment, accumulating vPis: the placement lookup comes first (line 132,
assertion failure when the variable id is outside the table), then the
reset polarity assertion (lines 133-136, before any filtering), then the
two filters (lines 138-141), then the push (line 143). -/
def extractLoop (p : Pdr_Man_t) : List Nat → List Nat → ExtractStep
  | [], acc => ExtractStep.okSeq acc
  | lit :: rest, acc =>
      match Vec_IntEntry p.vPIs2Imem (Abc_Lit2Var lit) with
      | none => ExtractStep.stopRange
      | some imemIdx =>
          if Abc_Lit2Var lit = 1 ∧ Abc_LitIsCompl lit = true then
            ExtractStep.stopResetCompl
          else if imemIdx < 0 then extractLoop p rest acc
          else if p.nPis ≤ Abc_Lit2Var lit then extractLoop p rest acc
          else extractLoop p rest (acc ++ [lit])

/-- Outcome of Pdr_ManOblToProgram: the extracted program, or the way
the call dies (reset polarity assertion, table range assertion, null
dereference of an empty chain). -/
inductive ExtractOutcome where
  | okProg (prog : Pdr_Set_t)
  | stopResetCompl
  | stopRange
  | nullDeref
deriving DecidableEq

/-- Pdr_ManOblToProgram (lines 94-147).  Returns the manager state at
return or abort together with the outcome: nStartFrame is zeroed
(line 101) and vPis cleared (line 103); the chain is resolved
(lines 106-122) and nStartFrame set to the resolved index (line 125);
the resolved frame is then filtered into vPis and packed by
Pdr_SetCreate (lines 128-146).  An empty chain dereferences a null
pointer at line 128 after nStartFrame was zeroed.  The transient vPis
content at an abort point is not modelled (the process dies there). -/
def Pdr_ManOblToProgram (p : Pdr_Man_t) (chain : List Pdr_Set_t) :
    Pdr_Man_t × ExtractOutcome :=
  match chain with
  | [] => ({ p with nStartFrame := 0, vPis := [] }, ExtractOutcome.nullDeref)
  | s :: rest =>
      match extractLoop p (inputLits (resolveStartFrame s rest).2) [] with
      | ExtractStep.okSeq kept =>
          ({ p with nStartFrame := (resolveStartFrame s rest).1, vPis := kept },
           ExtractOutcome.okProg (Pdr_SetCreate p.vDummy kept))
      | ExtractStep.stopResetCompl =>
          ({ p with nStartFrame := (resolveStartFrame s rest).1, vPis := [] },
           ExtractOutcome.stopResetCompl)
      | ExtractStep.stopRange =>
          ({ p with nStartFrame := (resolveStartFrame s rest).1, vPis := [] },
           ExtractOutcome.stopRange)

-- ////////////////////////////////////////////////////////////////////////
-- //  Register / instruction mapping queries (lines 161-257)            //
-- ////////////////////////////////////////////////////////////////////////

/-- Pdr_ManRegInstId (lines 161-164): asserts the register id is inside
vReg2Inst, then reads the owning instruction id. -/
def Pdr_ManRegInstId (p : Pdr_Man_t) (regId : Nat) : Option Int :=
  if regId < p.vReg2Inst.length then Vec_IntEntry p.vReg2Inst regId else none

/-- Pdr_ManPiInstId (lines 178-184): asserts the PI id is inside
vPIs2Imem and the placement is nonnegative, then divides by instLen. -/
def Pdr_ManPiInstId (p : Pdr_Man_t) (piId : Nat) : Option Nat :=
  if piId < p.vPIs2Imem.length then
    match Vec_IntEntry p.vPIs2Imem piId with
    | none => none
    | some imemb => if imemb < 0 then none else some (imemb.toNat / p.instLen)
  else none

/-- Pdr_ManRegInstBit (lines 198-204): asserts the register id is inside
vReg2Inst, reads the associated PI from vReg2PI (whose own bound is
checked inside Vec_IntEntry), asserts that PI is inside vPIs2Imem, then
takes the placement modulo instLen (C truncated remainder). -/
def Pdr_ManRegInstBit (p : Pdr_Man_t) (regId : Nat) : Option Int :=
  if regId < p.vReg2Inst.length then
    match Vec_IntEntry p.vReg2PI regId with
    | none => none
    | some pi =>
        if 0 ≤ pi ∧ pi.toNat < p.vPIs2Imem.length then
          match Vec_IntEntry p.vPIs2Imem pi.toNat with
          | none => none
          | some imemb => some (Int.tmod imemb (Int.ofNat p.instLen))
        else none
  else none

/-- Pdr_ManPiInstBit (lines 218-223): asserts the PI id is inside
vPIs2Imem and the placement is nonnegative, then reduces modulo
instLen. -/
def Pdr_ManPiInstBit (p : Pdr_Man_t) (piId : Nat) : Option Nat :=
  if piId < p.vPIs2Imem.length then
    match Vec_IntEntry p.vPIs2Imem piId with
    | none => none
    | some imemb => if imemb < 0 then none else some (imemb.toNat % p.instLen)
  else none

/-- Pdr_ManIsRegInst (lines 237-241): asserts the register id is inside
vReg2Inst, then tests whether the owning instruction id is present. -/
def Pdr_ManIsRegInst (p : Pdr_Man_t) (regId : Nat) : Option Bool :=
  if regId < p.vReg2Inst.length then
    match Vec_IntEntry p.vReg2Inst regId with
    | none => none
    | some instId => some (decide (0 ≤ instId))
  else none

/-- Pdr_ManRegCopy (lines 255-257): no assertion of its own; the bound
is enforced inside Vec_IntEntry. -/
def Pdr_ManRegCopy (p : Pdr_Man_t) (regId : Nat) : Option Int :=
  Vec_IntEntry p.vReg2Copy regId

-- ////////////////////////////////////////////////////////////////////////
-- //  Specification-side derived notions                                //
-- ////////////////////////////////////////////////////////////////////////

/-- Whether the renderer loop can execute the store for this literal:
the variable id is inside the placement table and the entry lands inside
a buffer of length n. -/
def goodLitB (p : Pdr_Man_t) (n : Nat) (lit : Nat) : Bool :=
  match Vec_IntEntry p.vPIs2Imem (Abc_Lit2Var lit) with
  | none => false
  | some e => decide (0 ≤ e) && decide (e.toNat < n)

/-- Whether a literal writes buffer position q. -/
def writesAt (p : Pdr_Man_t) (q : Nat) (lit : Nat) : Bool :=
  decide (Vec_IntEntry p.vPIs2Imem (Abc_Lit2Var lit) = some (Int.ofNat q))

/-- The last literal of the list that writes buffer position q. -/
def lastWriter (p : Pdr_Man_t) (q : Nat) : List Nat → Option Nat
  | [] => none
  | lit :: rest =>
      match lastWriter p q rest with
      | some l => some l
      | none => if writesAt p q lit then some lit else none

/-- The filter of the extraction loop (lines 138-141): valid placement
and declared primary input. -/
def keptLitB (p : Pdr_Man_t) (lit : Nat) : Bool :=
  match Vec_IntEntry p.vPIs2Imem (Abc_Lit2Var lit) with
  | none => false
  | some e => decide (0 ≤ e) && decide (Abc_Lit2Var lit < p.nPis)

/-- The input literals of a frame that pass the extraction filter. -/
def keptLits (p : Pdr_Man_t) (s : Pdr_Set_t) : List Nat :=
  (inputLits s).filter (keptLitB p)

/-- The last chain frame asserting reset true, with its distance from
the list head; none when no frame asserts reset true. -/
def lastReset : List Pdr_Set_t → Option (Nat × Pdr_Set_t)
  | [] => none
  | s :: rest =>
      match lastReset rest with
      | some kf => some (kf.1 + 1, kf.2)
      | none => if hasResetTrue s then some (0, s) else none

-- ////////////////////////////////////////////////////////////////////////
-- //  Concrete fixtures for witnesses and counterexamples               //
-- ////////////////////////////////////////////////////////////////////////

/-- A small manager: two one-instruction-wide slots, PI 0 placed at
position 0, PI 1 (the reset) unmapped, PI 2 (a synthetic id at the
declared PI count) placed at position 1. -/
def pA : Pdr_Man_t :=
  { instLen := 2, nInsts := 1, vPIs2Imem := [0, -1, 1], nPis := 2,
    vReg2Inst := [3, -1], vReg2PI := [0, 2], vReg2Copy := [7],
    vPis := [], vDummy := [], nStartFrame := 0 }

/-- A manager with one 4-bit instruction and PI 0 placed at position 1. -/
def p5 : Pdr_Man_t :=
  { instLen := 4, nInsts := 1, vPIs2Imem := [1], nPis := 1,
    vReg2Inst := [], vReg2PI := [], vReg2Copy := [],
    vPis := [], vDummy := [], nStartFrame := 0 }

/-- A frame with an empty input segment. -/
def sNo : Pdr_Set_t := { nLits := 0, Lits := [] }

/-- A frame asserting reset (variable 1) with true polarity. -/
def sRst : Pdr_Set_t := { nLits := 0, Lits := [2] }

/-- A frame carrying the reset variable complemented. -/
def sRstCompl : Pdr_Set_t := { nLits := 0, Lits := [3] }

/-- A frame with PI 0 true (placed) and synthetic id 2 true (placed). -/
def sAB : Pdr_Set_t := { nLits := 0, Lits := [0, 4] }

/-- A program whose only input literal is PI 0 with true polarity. -/
def sKept : Pdr_Set_t := { nLits := 0, Lits := [0] }

/-- A frame writing position 0 twice: first true, then complemented. -/
def sDup : Pdr_Set_t := { nLits := 0, Lits := [0, 1] }

-- ////////////////////////////////////////////////////////////////////////
-- //  List access helpers                                               //
-- ////////////////////////////////////////////////////////////////////////

theorem getD_set_self (l : List Char) (i : Nat) (a d : Char) (h : i < l.length) :
    (l.set i a).getD i d = a := by
  rw [List.getD_eq_getElem?_getD, List.getElem?_set_self h, Option.getD_some]

theorem getD_set_ne (l : List Char) (i j : Nat) (a d : Char) (h : i ≠ j) :
    (l.set i a).getD j d = l.getD j d := by
  rw [List.getD_eq_getElem?_getD, List.getElem?_set_ne h, List.getD_eq_getElem?_getD]

theorem getD_init_buf (n : Nat) (c z d : Char) (q : Nat) (hq : q < n) :
    (List.replicate n c ++ [z]).getD q d = c := by
  rw [List.getD_eq_getElem?_getD, List.getElem?_append]
  simp [List.length_replicate, hq, List.getElem?_replicate]

theorem getD_map_range {β : Type} (f : Nat → β) (n i : Nat) (d : β) (h : i < n) :
    ((List.range n).map f).getD i d = f i := by
  rw [List.getD_eq_getElem?_getD, List.getElem?_map, List.getElem?_range h]
  rfl

theorem mem_of_getElem_some {α : Type} (l : List α) (n : Nat) (a : α)
    (h : l[n]? = some a) : a ∈ l := by
  obtain ⟨h1, rfl⟩ := List.getElem?_eq_some_iff.mp h
  exact List.getElem_mem h1

-- ////////////////////////////////////////////////////////////////////////
-- //  Renderer lemmas                                                   //
-- ////////////////////////////////////////////////////////////////////////

theorem rowChar_renderLines (p : Pdr_Man_t) (buf : List Char) (i j : Nat)
    (hi : i < p.nInsts) (hj : j < p.instLen) :
    rowChar (renderLines p buf) i j = buf.getD (renderPos p.instLen i j) '?' := by
  unfold rowChar renderLines renderRow renderPos
  rw [getD_map_range _ _ _ _ hi, getD_map_range _ _ _ _ hj]

theorem renderPos_lt (iL nI i j : Nat) (hi : i < nI) (hj : j < iL) :
    renderPos iL i j < iL * nI := by
  unfold renderPos
  calc i * iL + (iL - 1 - j) < i * iL + iL := by omega
    _ = (i + 1) * iL := by ring
    _ ≤ nI * iL := Nat.mul_le_mul_right iL hi
    _ = iL * nI := Nat.mul_comm nI iL

theorem writeLit_some (p : Pdr_Man_t) (lit : Nat) (b1 b2 r1 r2 : List Char)
    (h : writeLit p lit (b1, b2) = some (r1, r2)) :
    ∃ e : Int, Vec_IntEntry p.vPIs2Imem (Abc_Lit2Var lit) = some e ∧ 0 ≤ e ∧
      e.toNat < b1.length ∧ r1 = b1.set e.toNat (polarityChar lit) ∧
      r2 = b2.set e.toNat (polarityChar lit) := by
  unfold writeLit at h
  cases hV : Vec_IntEntry p.vPIs2Imem (Abc_Lit2Var lit) with
  | none => rw [hV] at h; cases h
  | some e =>
      rw [hV] at h
      replace h : (if 0 ≤ e ∧ e.toNat < b1.length then
          some (b1.set e.toNat (polarityChar lit), b2.set e.toNat (polarityChar lit))
          else none) = some (r1, r2) := h
      by_cases hc : 0 ≤ e ∧ e.toNat < b1.length
      · rw [if_pos hc, Option.some.injEq, Prod.mk.injEq] at h
        exact ⟨e, rfl, hc.1, hc.2, h.1.symm, h.2.symm⟩
      · rw [if_neg hc] at h; cases h

theorem writeLit_of_good (p : Pdr_Man_t) (lit : Nat) (b1 b2 : List Char)
    (h : goodLitB p b1.length lit = true) :
    ∃ e : Int, Vec_IntEntry p.vPIs2Imem (Abc_Lit2Var lit) = some e ∧ 0 ≤ e ∧
      e.toNat < b1.length ∧
      writeLit p lit (b1, b2) =
        some (b1.set e.toNat (polarityChar lit), b2.set e.toNat (polarityChar lit)) := by
  unfold goodLitB at h
  cases hV : Vec_IntEntry p.vPIs2Imem (Abc_Lit2Var lit) with
  | none => rw [hV] at h; cases h
  | some e =>
      rw [hV] at h
      simp only [Bool.and_eq_true, decide_eq_true_eq] at h
      refine ⟨e, rfl, h.1, h.2, ?_⟩
      show (match Vec_IntEntry p.vPIs2Imem (Abc_Lit2Var lit) with
        | none => none
        | some imemIdx =>
            if 0 ≤ imemIdx ∧ imemIdx.toNat < b1.length then
              some (b1.set imemIdx.toNat (polarityChar lit),
                    b2.set imemIdx.toNat (polarityChar lit))
            else none) =
          some (b1.set e.toNat (polarityChar lit), b2.set e.toNat (polarityChar lit))
      rw [hV]
      exact if_pos ⟨h.1, h.2⟩

theorem fillBufs_lengths (p : Pdr_Man_t) (lits : List Nat) :
    ∀ b1 b2 c1 c2, fillBufs p lits (b1, b2) = some (c1, c2) →
      c1.length = b1.length ∧ c2.length = b2.length := by
  induction lits with
  | nil =>
      intro b1 b2 c1 c2 h
      simp only [fillBufs, Option.some.injEq, Prod.mk.injEq] at h
      rw [← h.1, ← h.2]; exact ⟨rfl, rfl⟩
  | cons lit rest ih =>
      intro b1 b2 c1 c2 h
      simp only [fillBufs] at h
      cases hW : writeLit p lit (b1, b2) with
      | none => rw [hW] at h; cases h
      | some bufs2 =>
          rw [hW] at h
          obtain ⟨e, hV, he0, heL, h1, h2⟩ :=
            writeLit_some p lit b1 b2 bufs2.1 bufs2.2 hW
          have := ih bufs2.1 bufs2.2 c1 c2 h
          rw [h1, h2, List.length_set, List.length_set] at this
          exact this

theorem fillBufs_good (p : Pdr_Man_t) (lits : List Nat) :
    ∀ b1 b2 c1 c2, fillBufs p lits (b1, b2) = some (c1, c2) →
      ∀ lit ∈ lits, goodLitB p b1.length lit = true := by
  induction lits with
  | nil => intro b1 b2 c1 c2 _ lit hm; cases hm
  | cons l0 rest ih =>
      intro b1 b2 c1 c2 h lit hm
      simp only [fillBufs] at h
      cases hW : writeLit p l0 (b1, b2) with
      | none => rw [hW] at h; cases h
      | some bufs2 =>
          rw [hW] at h
          obtain ⟨e, hV, he0, heL, h1, h2⟩ :=
            writeLit_some p l0 b1 b2 bufs2.1 bufs2.2 hW
          rcases List.mem_cons.mp hm with rfl | hm2
          · unfold goodLitB
            rw [hV]
            simp [he0, heL]
          · have := ih bufs2.1 bufs2.2 c1 c2 h lit hm2
            rw [h1, List.length_set] at this
            exact this

theorem fillBufs_total (p : Pdr_Man_t) (lits : List Nat) :
    ∀ b1 b2, (∀ lit ∈ lits, goodLitB p b1.length lit = true) →
      ∃ c1 c2, fillBufs p lits (b1, b2) = some (c1, c2) := by
  induction lits with
  | nil => intro b1 b2 _; exact ⟨b1, b2, rfl⟩
  | cons l0 rest ih =>
      intro b1 b2 hg
      obtain ⟨e, hV, he0, heL, hW⟩ :=
        writeLit_of_good p l0 b1 b2 (hg l0 (List.mem_cons_self l0 rest))
      have hg2 : ∀ lit ∈ rest, goodLitB p (b1.set e.toNat (polarityChar l0)).length lit = true := by
        intro lit hm
        rw [List.length_set]
        exact hg lit (List.mem_cons_of_mem l0 hm)
      obtain ⟨c1, c2, hfill⟩ := ih _ (b2.set e.toNat (polarityChar l0)) hg2
      refine ⟨c1, c2, ?_⟩
      simp only [fillBufs]
      rw [hW]
      exact hfill

theorem fillBufs_char (p : Pdr_Man_t) (lits : List Nat) :
    ∀ b1 b2 c1 c2, fillBufs p lits (b1, b2) = some (c1, c2) →
      b2.length = b1.length → ∀ q, q < b1.length → ∀ d,
      c1.getD q d = (match lastWriter p q lits with
                     | some l => polarityChar l
                     | none => b1.getD q d) ∧
      c2.getD q d = (match lastWriter p q lits with
                     | some l => polarityChar l
                     | none => b2.getD q d) := by
  induction lits with
  | nil =>
      intro b1 b2 c1 c2 h _ q _ d
      simp only [fillBufs, Option.some.injEq, Prod.mk.injEq] at h
      rw [← h.1, ← h.2]
      exact ⟨rfl, rfl⟩
  | cons lit rest ih =>
      intro b1 b2 c1 c2 h hlen q hq d
      simp only [fillBufs] at h
      cases hW : writeLit p lit (b1, b2) with
      | none => rw [hW] at h; cases h
      | some bufs2 =>
          rw [hW] at h
          obtain ⟨e, hV, he0, heL, h1, h2⟩ :=
            writeLit_some p lit b1 b2 bufs2.1 bufs2.2 hW
          have hlen2 : bufs2.2.length = bufs2.1.length := by
            rw [h1, h2, List.length_set, List.length_set, hlen]
          have hq2 : q < bufs2.1.length := by rw [h1, List.length_set]; exact hq
          have hrec := ih bufs2.1 bufs2.2 c1 c2 h hlen2 q hq2 d
          simp only [lastWriter]
          cases hLW : lastWriter p q rest with
          | some l => rw [hLW] at hrec; exact hrec
          | none =>
              rw [hLW] at hrec
              cases hWr : writesAt p q lit with
              | true =>
                  have hEq : e = Int.ofNat q := by
                    unfold writesAt at hWr
                    rw [hV] at hWr
                    simpa using hWr
                  have hTq : e.toNat = q := by rw [hEq]; rfl
                  constructor
                  · rw [hrec.1, h1, hTq, getD_set_self _ _ _ _ hq]
                    rfl
                  · rw [hrec.2, h2, hTq, getD_set_self _ _ _ _ (by rw [hlen]; exact hq)]
                    rfl
              | false =>
                  have hNe : e.toNat ≠ q := by
                    intro hc
                    unfold writesAt at hWr
                    rw [hV] at hWr
                    have hne2 : ¬ (some e = some (Int.ofNat q)) := of_decide_eq_false hWr
                    apply hne2
                    have hEq2 : e = Int.ofNat q := by
                      rw [← hc]
                      exact (Int.toNat_of_nonneg he0).symm
                    rw [hEq2]
                  constructor
                  · rw [hrec.1, h1, getD_set_ne _ _ _ _ _ hNe]
                    rfl
                  · rw [hrec.2, h2, getD_set_ne _ _ _ _ _ hNe]
                    rfl

theorem render_fill (p : Pdr_Man_t) (prog : Pdr_Set_t)
    (c g : List (List Char))
    (h : Pdr_ManLogUnsafeProgram p prog = some (c, g)) :
    ∃ bufs : List Char × List Char,
      fillBufs p (inputLits prog)
        (List.replicate (totalBits p) '0' ++ [Char.ofNat 0],
         List.replicate (totalBits p) 'x' ++ [Char.ofNat 0]) = some bufs ∧
      c = renderLines p bufs.1 ∧ g = renderLines p bufs.2 := by
  unfold Pdr_ManLogUnsafeProgram at h
  cases hF : fillBufs p (inputLits prog)
      (List.replicate (totalBits p) '0' ++ [Char.ofNat 0],
       List.replicate (totalBits p) 'x' ++ [Char.ofNat 0]) with
  | none => rw [hF] at h; cases h
  | some bufs =>
      rw [hF] at h
      simp only [Option.some.injEq, Prod.mk.injEq] at h
      exact ⟨bufs, rfl, h.1.symm, h.2.symm⟩

theorem render_char (p : Pdr_Man_t) (prog : Pdr_Set_t) (c g : List (List Char))
    (h : Pdr_ManLogUnsafeProgram p prog = some (c, g)) (i j : Nat)
    (hi : i < p.nInsts) (hj : j < p.instLen) :
    rowChar c i j = (match lastWriter p (renderPos p.instLen i j) (inputLits prog) with
                     | some l => polarityChar l
                     | none => '0') ∧
    rowChar g i j = (match lastWriter p (renderPos p.instLen i j) (inputLits prog) with
                     | some l => polarityChar l
                     | none => 'x') := by
  obtain ⟨bufs, hF, rfl, rfl⟩ := render_fill p prog c g h
  have hqTB : renderPos p.instLen i j < totalBits p := by
    unfold totalBits
    exact renderPos_lt p.instLen p.nInsts i j hi hj
  have hlen1 : (List.replicate (totalBits p) '0' ++ [Char.ofNat 0]).length = totalBits p + 1 := by
    simp
  have hlen2 : (List.replicate (totalBits p) 'x' ++ [Char.ofNat 0]).length = totalBits p + 1 := by
    simp
  have hq1 : renderPos p.instLen i j < (List.replicate (totalBits p) '0' ++ [Char.ofNat 0]).length := by
    rw [hlen1]; omega
  have hchar := fillBufs_char p (inputLits prog) _ _ bufs.1 bufs.2 hF
      (by rw [hlen1, hlen2]) (renderPos p.instLen i j) hq1 '?'
  rw [rowChar_renderLines p bufs.1 i j hi hj, rowChar_renderLines p bufs.2 i j hi hj]
  rcases hchar with ⟨hc1, hc2⟩
  cases hLW : lastWriter p (renderPos p.instLen i j) (inputLits prog) with
  | some l =>
      rw [hLW] at hc1 hc2
      exact ⟨hc1, hc2⟩
  | none =>
      rw [hLW] at hc1 hc2
      rw [hc1, hc2, getD_init_buf _ _ _ _ _ hqTB, getD_init_buf _ _ _ _ _ hqTB]
      exact ⟨rfl, rfl⟩

theorem render_good_of_some (p : Pdr_Man_t) (prog : Pdr_Set_t)
    (c g : List (List Char))
    (h : Pdr_ManLogUnsafeProgram p prog = some (c, g)) :
    ∀ lit ∈ inputLits prog, goodLitB p (totalBits p + 1) lit = true := by
  obtain ⟨bufs, hF, _, _⟩ := render_fill p prog c g h
  intro lit hm
  have := fillBufs_good p (inputLits prog) _ _ bufs.1 bufs.2 hF lit hm
  simpa using this

theorem render_some_of_good (p : Pdr_Man_t) (prog : Pdr_Set_t)
    (h : ∀ lit ∈ inputLits prog, goodLitB p (totalBits p + 1) lit = true) :
    ∃ c g, Pdr_ManLogUnsafeProgram p prog = some (c, g) := by
  have h2 : ∀ lit ∈ inputLits prog,
      goodLitB p (List.replicate (totalBits p) '0' ++ [Char.ofNat 0]).length lit = true := by
    intro lit hm
    simpa using h lit hm
  obtain ⟨c1, c2, hF⟩ := fillBufs_total p (inputLits prog)
      (List.replicate (totalBits p) '0' ++ [Char.ofNat 0])
      (List.replicate (totalBits p) 'x' ++ [Char.ofNat 0]) h2
  refine ⟨renderLines p c1, renderLines p c2, ?_⟩
  unfold Pdr_ManLogUnsafeProgram
  rw [hF]

theorem render_congr (p : Pdr_Man_t) (a b : Pdr_Set_t)
    (h : inputLits a = inputLits b) :
    Pdr_ManLogUnsafeProgram p a = Pdr_ManLogUnsafeProgram p b := by
  unfold Pdr_ManLogUnsafeProgram
  rw [h]

-- ////////////////////////////////////////////////////////////////////////
-- //  Resolver lemmas                                                   //
-- ////////////////////////////////////////////////////////////////////////

theorem resolveLoop_eq (chain : List Pdr_Set_t) :
    ∀ n fL ob, resolveLoop chain n fL ob =
      (match lastReset chain with
       | some kf => (n + kf.1, kf.2)
       | none => (fL, ob)) := by
  induction chain with
  | nil => intro n fL ob; rfl
  | cons s rest ih =>
      intro n fL ob
      simp only [resolveLoop, lastReset]
      cases hR : hasResetTrue s with
      | true =>
          rw [if_pos rfl, ih]
          cases hLR : lastReset rest with
          | none => simp
          | some kf =>
              simp only [Prod.mk.injEq]
              exact ⟨by omega, trivial⟩
      | false =>
          rw [if_neg (by simp), ih]
          cases hLR : lastReset rest with
          | none => simp
          | some kf =>
              simp only [Prod.mk.injEq]
              exact ⟨by omega, trivial⟩

theorem lastReset_none (chain : List Pdr_Set_t) :
    lastReset chain = none ↔ ∀ f ∈ chain, hasResetTrue f = false := by
  induction chain with
  | nil => simp [lastReset]
  | cons s rest ih =>
      simp only [lastReset]
      cases hLR : lastReset rest with
      | some kf =>
          rw [hLR] at ih
          simp only [List.mem_cons]
          constructor
          · intro h; cases h
          · intro h
            exfalso
            have : (none : Option (Nat × Pdr_Set_t)) = none := rfl
            have hall : ∀ f ∈ rest, hasResetTrue f = false := fun f hm => h f (Or.inr hm)
            have := ih.mpr hall
            cases this
      | none =>
        cases hR : hasResetTrue s with
        | true =>
            simp only [if_pos rfl]
            constructor
            · intro h; cases h
            · intro h
              have := h s (List.mem_cons_self s rest)
              rw [hR] at this
              cases this
        | false =>
            rw [hLR] at ih
            constructor
            · intro _ f hm
              rcases List.mem_cons.mp hm with rfl | hm2
              · exact hR
              · exact ih.mp rfl f hm2
            · intro _
              rfl

theorem lastReset_some (chain : List Pdr_Set_t) :
    ∀ k f, lastReset chain = some (k, f) →
      chain[k]? = some f ∧ hasResetTrue f = true ∧
      ∀ j g, k < j → chain[j]? = some g → hasResetTrue g = false := by
  induction chain with
  | nil => intro k f h; cases h
  | cons s rest ih =>
      intro k f h
      simp only [lastReset] at h
      cases hLR : lastReset rest with
      | some kf =>
          rw [hLR] at h
          rw [Option.some.injEq, Prod.mk.injEq] at h
          obtain ⟨hk, hf⟩ := h
          obtain ⟨h1, h2, h3⟩ := ih kf.1 kf.2 (by rw [hLR])
          subst hk
          subst hf
          refine ⟨?_, h2, ?_⟩
          · rw [List.getElem?_cons_succ]; exact h1
          · intro j g hj hget
            cases j with
            | zero => omega
            | succ j2 =>
                rw [List.getElem?_cons_succ] at hget
                exact h3 j2 g (by omega) hget
      | none =>
          rw [hLR] at h
          cases hR : hasResetTrue s with
          | false => rw [hR] at h; simp at h
          | true =>
              rw [hR] at h
              replace h : some ((0 : Nat), s) = some (k, f) := h
              rw [Option.some.injEq, Prod.mk.injEq] at h
              obtain ⟨hk, hf⟩ := h
              subst hk
              subst hf
              refine ⟨by simp, hR, ?_⟩
              intro j g hj hget
              cases j with
              | zero => omega
              | succ j2 =>
                  rw [List.getElem?_cons_succ] at hget
                  exact (lastReset_none rest).mp hLR g (mem_of_getElem_some rest j2 g hget)

theorem resolveStartFrame_eq (s : Pdr_Set_t) (rest : List Pdr_Set_t) :
    resolveStartFrame s rest =
      (match lastReset (s :: rest) with
       | some kf => kf
       | none => (0, s)) := by
  unfold resolveStartFrame
  rw [resolveLoop_eq]
  cases hLR : lastReset (s :: rest) with
  | none => rfl
  | some kf => simp

-- ////////////////////////////////////////////////////////////////////////
-- //  Extractor lemmas                                                  //
-- ////////////////////////////////////////////////////////////////////////

theorem extractLoop_cons_none (p : Pdr_Man_t) (lit : Nat) (rest acc : List Nat)
    (hV : Vec_IntEntry p.vPIs2Imem (Abc_Lit2Var lit) = none) :
    extractLoop p (lit :: rest) acc = ExtractStep.stopRange := by
  simp only [extractLoop]
  rw [hV]

theorem extractLoop_cons_some (p : Pdr_Man_t) (lit : Nat) (rest acc : List Nat) (e : Int)
    (hV : Vec_IntEntry p.vPIs2Imem (Abc_Lit2Var lit) = some e) :
    extractLoop p (lit :: rest) acc =
      (if Abc_Lit2Var lit = 1 ∧ Abc_LitIsCompl lit = true then ExtractStep.stopResetCompl
       else if e < 0 then extractLoop p rest acc
       else if p.nPis ≤ Abc_Lit2Var lit then extractLoop p rest acc
       else extractLoop p rest (acc ++ [lit])) := by
  simp only [extractLoop]
  rw [hV]

theorem extractLoop_ok (p : Pdr_Man_t) (lits : List Nat) :
    ∀ acc kept, extractLoop p lits acc = ExtractStep.okSeq kept →
      kept = acc ++ lits.filter (keptLitB p) := by
  induction lits with
  | nil =>
      intro acc kept h
      simp only [extractLoop, ExtractStep.okSeq.injEq] at h
      simp [h]
  | cons lit rest ih =>
      intro acc kept h
      cases hV : Vec_IntEntry p.vPIs2Imem (Abc_Lit2Var lit) with
      | none => rw [extractLoop_cons_none p lit rest acc hV] at h; cases h
      | some e =>
          rw [extractLoop_cons_some p lit rest acc e hV] at h
          by_cases hRst : Abc_Lit2Var lit = 1 ∧ Abc_LitIsCompl lit = true
          · rw [if_pos hRst] at h; cases h
          · rw [if_neg hRst] at h
            by_cases hNeg : e < 0
            · rw [if_pos hNeg] at h
              have hkb : keptLitB p lit = false := by
                unfold keptLitB
                rw [hV]
                have hno : ¬ (0 ≤ e) := by omega
                simp [hno]
              rw [List.filter_cons, hkb]
              simpa using ih acc kept h
            · rw [if_neg hNeg] at h
              by_cases hPi : p.nPis ≤ Abc_Lit2Var lit
              · rw [if_pos hPi] at h
                have hkb : keptLitB p lit = false := by
                  unfold keptLitB
                  rw [hV]
                  have hno : ¬ (Abc_Lit2Var lit < p.nPis) := by omega
                  simp [hno]
                rw [List.filter_cons, hkb]
                simpa using ih acc kept h
              · rw [if_neg hPi] at h
                have hkb : keptLitB p lit = true := by
                  unfold keptLitB
                  rw [hV]
                  simp only [Bool.and_eq_true, decide_eq_true_eq]
                  exact ⟨by omega, by omega⟩
                rw [List.filter_cons, hkb]
                have := ih (acc ++ [lit]) kept h
                simp only [List.append_assoc] at this
                simpa using this

theorem extractLoop_no_resetCompl (p : Pdr_Man_t) (lits : List Nat) :
    ∀ acc, (∀ lit ∈ lits, ¬(Abc_Lit2Var lit = 1 ∧ Abc_LitIsCompl lit = true)) →
      extractLoop p lits acc ≠ ExtractStep.stopResetCompl := by
  induction lits with
  | nil => intro acc _ h; cases h
  | cons lit rest ih =>
      intro acc hall h
      cases hV : Vec_IntEntry p.vPIs2Imem (Abc_Lit2Var lit) with
      | none => rw [extractLoop_cons_none p lit rest acc hV] at h; cases h
      | some e =>
          rw [extractLoop_cons_some p lit rest acc e hV] at h
          rw [if_neg (hall lit (List.mem_cons_self lit rest))] at h
          have hall2 : ∀ l ∈ rest, ¬(Abc_Lit2Var l = 1 ∧ Abc_LitIsCompl l = true) :=
            fun l hm => hall l (List.mem_cons_of_mem lit hm)
          by_cases hNeg : e < 0
          · rw [if_pos hNeg] at h
            exact ih acc hall2 h
          · rw [if_neg hNeg] at h
            by_cases hPi : p.nPis ≤ Abc_Lit2Var lit
            · rw [if_pos hPi] at h
              exact ih acc hall2 h
            · rw [if_neg hPi] at h
              exact ih (acc ++ [lit]) hall2 h

theorem extractLoop_resetCompl (p : Pdr_Man_t) (lits : List Nat) :
    ∀ acc, (∃ lit ∈ lits, Abc_Lit2Var lit = 1 ∧ Abc_LitIsCompl lit = true) →
      (∀ lit ∈ lits, Abc_Lit2Var lit < p.vPIs2Imem.length) →
      extractLoop p lits acc = ExtractStep.stopResetCompl := by
  induction lits with
  | nil =>
      intro acc hex _
      obtain ⟨l, hm, _⟩ := hex
      cases hm
  | cons lit rest ih =>
      intro acc hex hrange
      have hlt : Abc_Lit2Var lit < p.vPIs2Imem.length :=
        hrange lit (List.mem_cons_self lit rest)
      obtain ⟨e, hV⟩ : ∃ e, Vec_IntEntry p.vPIs2Imem (Abc_Lit2Var lit) = some e := by
        unfold Vec_IntEntry
        exact ⟨_, List.getElem?_eq_getElem hlt⟩
      rw [extractLoop_cons_some p lit rest acc e hV]
      have hrange2 : ∀ l ∈ rest, Abc_Lit2Var l < p.vPIs2Imem.length :=
        fun l hm => hrange l (List.mem_cons_of_mem lit hm)
      by_cases hRst : Abc_Lit2Var lit = 1 ∧ Abc_LitIsCompl lit = true
      · rw [if_pos hRst]
      · rw [if_neg hRst]
        have hex2 : ∃ l ∈ rest, Abc_Lit2Var l = 1 ∧ Abc_LitIsCompl l = true := by
          obtain ⟨l, hm, hprop⟩ := hex
          rcases List.mem_cons.mp hm with rfl | hm2
          · exact absurd hprop hRst
          · exact ⟨l, hm2, hprop⟩
        by_cases hNeg : e < 0
        · rw [if_pos hNeg]
          exact ih acc hex2 hrange2
        · rw [if_neg hNeg]
          by_cases hPi : p.nPis ≤ Abc_Lit2Var lit
          · rw [if_pos hPi]
            exact ih acc hex2 hrange2
          · rw [if_neg hPi]
            exact ih (acc ++ [lit]) hex2 hrange2

theorem extractLoop_congr (p q : Pdr_Man_t) (h1 : p.vPIs2Imem = q.vPIs2Imem)
    (h2 : p.nPis = q.nPis) :
    ∀ lits acc, extractLoop p lits acc = extractLoop q lits acc := by
  intro lits
  induction lits with
  | nil => intro acc; rfl
  | cons lit rest ih =>
      intro acc
      simp only [extractLoop, h1, h2]
      cases hV : Vec_IntEntry q.vPIs2Imem (Abc_Lit2Var lit) with
      | none => rfl
      | some e => simp only [ih]

theorem oblToProgram_fst (p : Pdr_Man_t) (s : Pdr_Set_t) (rest : List Pdr_Set_t) :
    (Pdr_ManOblToProgram p (s :: rest)).1.nStartFrame = (resolveStartFrame s rest).1 := by
  simp only [Pdr_ManOblToProgram]
  cases hE : extractLoop p (inputLits (resolveStartFrame s rest).2) [] <;> rfl

theorem oblToProgram_snd_eq (p : Pdr_Man_t) (s : Pdr_Set_t) (rest : List Pdr_Set_t) :
    (Pdr_ManOblToProgram p (s :: rest)).2 =
      (match extractLoop p (inputLits (resolveStartFrame s rest).2) [] with
       | ExtractStep.okSeq kept => ExtractOutcome.okProg (Pdr_SetCreate p.vDummy kept)
       | ExtractStep.stopResetCompl => ExtractOutcome.stopResetCompl
       | ExtractStep.stopRange => ExtractOutcome.stopRange) := by
  simp only [Pdr_ManOblToProgram]
  cases hE : extractLoop p (inputLits (resolveStartFrame s rest).2) [] <;> rfl

theorem oblToProgram_ok (p : Pdr_Man_t) (s : Pdr_Set_t) (rest : List Pdr_Set_t)
    (prog : Pdr_Set_t)
    (h : (Pdr_ManOblToProgram p (s :: rest)).2 = ExtractOutcome.okProg prog) :
    prog = Pdr_SetCreate p.vDummy (keptLits p (resolveStartFrame s rest).2) ∧
    inputLits prog = keptLits p (resolveStartFrame s rest).2 := by
  rw [oblToProgram_snd_eq] at h
  cases hE : extractLoop p (inputLits (resolveStartFrame s rest).2) [] with
  | okSeq kept =>
      rw [hE] at h
      replace h : ExtractOutcome.okProg (Pdr_SetCreate p.vDummy kept) =
          ExtractOutcome.okProg prog := h
      rw [ExtractOutcome.okProg.injEq] at h
      have hk := extractLoop_ok p _ [] kept hE
      simp only [List.nil_append] at hk
      have hprog : prog = Pdr_SetCreate p.vDummy (keptLits p (resolveStartFrame s rest).2) := by
        rw [← h, hk]
        rfl
      refine ⟨hprog, ?_⟩
      rw [hprog]
      unfold Pdr_SetCreate inputLits
      exact List.drop_left p.vDummy (keptLits p (resolveStartFrame s rest).2)
  | stopResetCompl => rw [hE] at h; cases h
  | stopRange => rw [hE] at h; cases h

theorem oblToProgram_vPis_clear (p : Pdr_Man_t) (v : List Nat)
    (chain : List Pdr_Set_t) :
    Pdr_ManOblToProgram { p with vPis := v } chain = Pdr_ManOblToProgram p chain := by
  cases chain with
  | nil => rfl
  | cons s rest =>
      simp only [Pdr_ManOblToProgram]
      rw [extractLoop_congr { p with vPis := v } p rfl rfl
        (inputLits (resolveStartFrame s rest).2) []]

-- ////////////////////////////////////////////////////////////////////////
-- //  Claims                                                            //
-- ////////////////////////////////////////////////////////////////////////

/-- Claim C1: on a nonempty counterexample chain, Pdr_ManOblToProgram
resolves to the last frame whose input segment contains the reset
variable with true polarity, defaults to the chain head (frame 0) when
no frame asserts reset, and sets the manager field nStartFrame to
exactly the resolved index. -/
theorem claim_C1_start_frame_resolver (p : Pdr_Man_t) (s : Pdr_Set_t)
    (rest : List Pdr_Set_t) :
    (Pdr_ManOblToProgram p (s :: rest)).1.nStartFrame = (resolveStartFrame s rest).1 ∧
    (s :: rest)[(resolveStartFrame s rest).1]? = some (resolveStartFrame s rest).2 ∧
    (∀ j g, (resolveStartFrame s rest).1 < j → (s :: rest)[j]? = some g →
      hasResetTrue g = false) ∧
    (hasResetTrue (resolveStartFrame s rest).2 = true ∨
      ((resolveStartFrame s rest).1 = 0 ∧ (resolveStartFrame s rest).2 = s ∧
       ∀ g ∈ s :: rest, hasResetTrue g = false)) := by
  refine ⟨oblToProgram_fst p s rest, ?_⟩
  rw [resolveStartFrame_eq]
  cases hLR : lastReset (s :: rest) with
  | some kf =>
      obtain ⟨h1, h2, h3⟩ := lastReset_some (s :: rest) kf.1 kf.2 (by rw [hLR])
      exact ⟨h1, h3, Or.inl h2⟩
  | none =>
      have hall := (lastReset_none (s :: rest)).mp hLR
      refine ⟨by simp, ?_, Or.inr ⟨rfl, rfl, hall⟩⟩
      intro j g _ hget
      exact hall g (mem_of_getElem_some _ j g hget)

/-- Witness for C1 on the spec scenario: three frames with only frame 1
asserting reset resolve to start frame 1, and frame 2 indeed does not
assert reset. -/
theorem claim_C1_start_frame_resolver_witness :
    (Pdr_ManOblToProgram pA [sNo, sRst, sNo]).1.nStartFrame = 1 ∧
    hasResetTrue sNo = false :=
  ⟨((claim_C1_start_frame_resolver pA sNo [sRst, sNo]).1).trans (by decide),
   (claim_C1_start_frame_resolver pA sNo [sRst, sNo]).2.2.1 2 sNo (by decide) (by decide)⟩

/-- Counterexample to C2: a literal whose placement entry is the
unmapped sentinel is not skipped by Pdr_ManLogUnsafeProgram; the store
goes through the negative index (undefined behavior, modelled none)
instead of leaving both renderings unchanged. -/
theorem claim_C2_counterexample :
    Pdr_ManLogUnsafeProgram pA sRst = none ∧
    Pdr_ManLogUnsafeProgram pA sNo = some ([['0', '0']], [['x', 'x']]) ∧
    Pdr_ManLogUnsafeProgram pA sRst ≠ Pdr_ManLogUnsafeProgram pA sNo :=
  ⟨rfl, rfl, by decide⟩

/-- Claim C2 (amended): the renderer performs no filtering at all: when
some input literal has an unmapped placement or a variable id outside
the placement table (or a placement beyond the buffer) the rendering is
undefined behavior rather than a skip, and when every input literal has
a valid in-buffer placement the rendering succeeds, regardless of the
declared primary input count.  The skipping described by the spec
happens only in Pdr_ManOblToProgram. -/
theorem claim_C2_no_skip (p : Pdr_Man_t) (prog : Pdr_Set_t) :
    ((∃ lit ∈ inputLits prog, goodLitB p (totalBits p + 1) lit = false) →
      Pdr_ManLogUnsafeProgram p prog = none) ∧
    ((∀ lit ∈ inputLits prog, goodLitB p (totalBits p + 1) lit = true) →
      ∃ c g, Pdr_ManLogUnsafeProgram p prog = some (c, g)) := by
  constructor
  · intro hex
    obtain ⟨l, hm, hbad⟩ := hex
    cases hR : Pdr_ManLogUnsafeProgram p prog with
    | none => rfl
    | some cg =>
        exfalso
        have hg := render_good_of_some p prog cg.1 cg.2 (by rw [hR]) l hm
        rw [hg] at hbad
        cases hbad
  · exact render_some_of_good p prog

/-- Witness for the amended C2: an unmapped reset literal kills the
rendering, a validly placed literal renders. -/
theorem claim_C2_no_skip_witness :
    Pdr_ManLogUnsafeProgram pA sRst = none ∧
    ∃ c g, Pdr_ManLogUnsafeProgram pA sKept = some (c, g) :=
  ⟨(claim_C2_no_skip pA sRst).1 ⟨2, by decide, by rfl⟩,
   (claim_C2_no_skip pA sKept).2 (by decide)⟩

/-- Claim C4: in a successfully rendered program every position written
by no input literal renders 0 in the concrete rows and x in the
generalized rows; a frame none of whose input literals is validly
placed (hence, rendering being defined, one with no input literal at
all) renders all 0 and all x. -/
theorem claim_C4_untouched_positions (p : Pdr_Man_t) (prog : Pdr_Set_t)
    (c g : List (List Char))
    (h : Pdr_ManLogUnsafeProgram p prog = some (c, g)) :
    (∀ i j, i < p.nInsts → j < p.instLen →
      lastWriter p (renderPos p.instLen i j) (inputLits prog) = none →
      rowChar c i j = '0' ∧ rowChar g i j = 'x') ∧
    ((∀ lit ∈ inputLits prog, goodLitB p (totalBits p + 1) lit = false) →
      ∀ i j, i < p.nInsts → j < p.instLen →
        rowChar c i j = '0' ∧ rowChar g i j = 'x') := by
  constructor
  · intro i j hi hj hLW
    have hc := render_char p prog c g h i j hi hj
    rw [hLW] at hc
    exact hc
  · intro hbad i j hi hj
    have hempty : inputLits prog = [] := by
      cases hIL : inputLits prog with
      | nil => rfl
      | cons l0 tl =>
          exfalso
          have hm : l0 ∈ inputLits prog := by
            rw [hIL]; exact List.mem_cons_self l0 tl
          have hgood := render_good_of_some p prog c g h l0 hm
          have hb := hbad l0 hm
          rw [hgood] at hb
          cases hb
    have hLW : lastWriter p (renderPos p.instLen i j) (inputLits prog) = none := by
      rw [hempty]; rfl
    have hc := render_char p prog c g h i j hi hj
    rw [hLW] at hc
    exact hc

/-- Witness for C4: the empty frame renders to a 0 row and an x row. -/
theorem claim_C4_untouched_positions_witness :
    rowChar [['0', '0']] 0 1 = '0' ∧ rowChar [['x', 'x']] 0 1 = 'x' :=
  (claim_C4_untouched_positions pA sNo [['0', '0']] [['x', 'x']] (by rfl)).1
    0 1 (by decide) (by decide) (by rfl)

/-- Counterexample to C5: with instLen 4, nInsts 1 and a single true
literal at placement index 1 the concrete row printed by the code is
0010 (bit 1 is second from the right), not the 0100 the claim states. -/
theorem claim_C5_counterexample :
    Pdr_ManLogUnsafeProgram p5 sKept =
      some ([['0', '0', '1', '0']], [['x', 'x', '1', 'x']]) ∧
    (['0', '0', '1', '0'] : List Char) ≠ ['0', '1', '0', '0'] :=
  ⟨rfl, by decide⟩

/-- Claim C5 (amended): row i of a rendering prints buffer positions
i * instLen + instLen - 1 down to i * instLen (most significant first),
and the concrete scenario (instLen 4, nInsts 1, one true literal at
placement index 1) renders the row 0010. -/
theorem claim_C5_row_order (p : Pdr_Man_t) (buf : List Char) (i j : Nat)
    (hi : i < p.nInsts) (hj : j < p.instLen) :
    rowChar (renderLines p buf) i j =
      buf.getD (i * p.instLen + (p.instLen - 1 - j)) '?' ∧
    Pdr_ManLogUnsafeProgram p5 sKept =
      some ([['0', '0', '1', '0']], [['x', 'x', '1', 'x']]) :=
  ⟨rowChar_renderLines p buf i j hi hj, rfl⟩

/-- Witness for the amended C5: row 0, column 0 of a 4-wide rendering
reads buffer position 3. -/
theorem claim_C5_row_order_witness :
    rowChar (renderLines p5 ['a', 'b', 'c', 'd']) 0 0 = 'd' :=
  ((claim_C5_row_order p5 ['a', 'b', 'c', 'd'] 0 0 (by decide) (by decide)).1).trans
    (by rfl)

/-- Claim C9: the rendered character at a position written by several
input literals is the polarity character of the literal occurring last
in the segment, in both renderings; duplicate placements are not
rejected (the rendering hypothesis is satisfiable with duplicates, see
the witness). -/
theorem claim_C9_last_write_wins (p : Pdr_Man_t) (prog : Pdr_Set_t)
    (c g : List (List Char)) (lit : Nat)
    (h : Pdr_ManLogUnsafeProgram p prog = some (c, g)) (i j : Nat)
    (hi : i < p.nInsts) (hj : j < p.instLen)
    (hLW : lastWriter p (renderPos p.instLen i j) (inputLits prog) = some lit) :
    rowChar c i j = polarityChar lit ∧ rowChar g i j = polarityChar lit := by
  have hc := render_char p prog c g h i j hi hj
  rw [hLW] at hc
  exact hc

/-- Witness for C9: two literals on position 0, true first then
complemented; the rendering succeeds and both renderings show the later
polarity 0. -/
theorem claim_C9_last_write_wins_witness :
    rowChar [['0', '0']] 0 1 = polarityChar 1 ∧
    rowChar [['x', '0']] 0 1 = polarityChar 1 :=
  claim_C9_last_write_wins pA sDup [['0', '0']] [['x', '0']] 1 (by rfl)
    0 1 (by decide) (by decide) (by rfl)

/-- Counterexample to C3: a true literal with a valid placement but a
variable id at the declared PI count is rendered in the frame yet
dropped from the extracted program, so the two concrete renderings have
different 1 positions (row 0, column 0 differs). -/
theorem claim_C3_counterexample :
    (Pdr_ManOblToProgram pA [sAB]).2 = ExtractOutcome.okProg sKept ∧
    Pdr_ManLogUnsafeProgram pA sAB = some ([['1', '1']], [['1', '1']]) ∧
    Pdr_ManLogUnsafeProgram pA sKept = some ([['0', '1']], [['x', '1']]) ∧
    rowChar [['0', '1']] 0 0 ≠ rowChar [['1', '1']] 0 0 :=
  ⟨rfl, rfl, rfl, by decide⟩

/-- Claim C3 (amended): when the resolved frame itself renders
successfully and every one of its input literals references a declared
primary input, the extracted program renders to the very same rows: its
1 positions are exactly those of the frame rendering and every other
concrete position is 0. -/
theorem claim_C3_rerender (p : Pdr_Man_t) (s : Pdr_Set_t) (rest : List Pdr_Set_t)
    (prog : Pdr_Set_t) (cF gF : List (List Char))
    (hok : (Pdr_ManOblToProgram p (s :: rest)).2 = ExtractOutcome.okProg prog)
    (hrF : Pdr_ManLogUnsafeProgram p (resolveStartFrame s rest).2 = some (cF, gF))
    (hpi : ∀ lit ∈ inputLits (resolveStartFrame s rest).2, Abc_Lit2Var lit < p.nPis) :
    ∃ cE gE, Pdr_ManLogUnsafeProgram p prog = some (cE, gE) ∧
      ∀ i j, i < p.nInsts → j < p.instLen →
        ((rowChar cE i j = '1') ↔ (rowChar cF i j = '1')) ∧
        (rowChar cE i j ≠ '1' → rowChar cE i j = '0') := by
  have hgood := render_good_of_some p _ cF gF hrF
  have hkeep : ∀ lit ∈ inputLits (resolveStartFrame s rest).2, keptLitB p lit = true := by
    intro lit hm
    have hg := hgood lit hm
    unfold goodLitB at hg
    unfold keptLitB
    cases hV : Vec_IntEntry p.vPIs2Imem (Abc_Lit2Var lit) with
    | none => rw [hV] at hg; cases hg
    | some e =>
        rw [hV] at hg
        simp only [Bool.and_eq_true, decide_eq_true_eq] at hg
        simp only [Bool.and_eq_true, decide_eq_true_eq]
        exact ⟨hg.1, hpi lit hm⟩
  have hinp : inputLits prog = inputLits (resolveStartFrame s rest).2 := by
    rw [(oblToProgram_ok p s rest prog hok).2]
    unfold keptLits
    exact List.filter_eq_self.mpr hkeep
  have hrE : Pdr_ManLogUnsafeProgram p prog = some (cF, gF) := by
    rw [render_congr p prog _ hinp]
    exact hrF
  refine ⟨cF, gF, hrE, ?_⟩
  intro i j hi hj
  refine ⟨Iff.rfl, ?_⟩
  intro hne
  have hc := (render_char p _ cF gF hrF i j hi hj).1
  cases hLW : lastWriter p (renderPos p.instLen i j)
      (inputLits (resolveStartFrame s rest).2) with
  | some l =>
      rw [hLW] at hc
      unfold polarityChar at hc
      replace hc : rowChar cF i j = (if Abc_LitIsCompl l = true then '0' else '1') := hc
      by_cases hcompl : Abc_LitIsCompl l = true
      · rw [if_pos hcompl] at hc; exact hc
      · rw [if_neg hcompl] at hc
        exact absurd hc hne
  | none => rw [hLW] at hc; exact hc

/-- Witness for the amended C3: a frame of declared, placed literals
survives extraction whole and re-renders identically. -/
theorem claim_C3_rerender_witness :
    ∃ cE gE, Pdr_ManLogUnsafeProgram pA sKept = some (cE, gE) ∧
      ∀ i j, i < pA.nInsts → j < pA.instLen →
        ((rowChar cE i j = '1') ↔ (rowChar [['0', '1']] i j = '1')) ∧
        (rowChar cE i j ≠ '1' → rowChar cE i j = '0') :=
  claim_C3_rerender pA sKept [] sKept [['0', '1']] [['x', '1']]
    (by rfl) (by rfl) (by decide)

/-- Counterexample to C6: a complemented reset literal that the filters
would drop (its placement is the unmapped sentinel, so it is not a kept
literal) still fires the assertion: the assertion does not check only
kept literals. -/
theorem claim_C6_counterexample :
    (Pdr_ManOblToProgram pA [sRstCompl]).2 = ExtractOutcome.stopResetCompl ∧
    keptLits pA sRstCompl = [] :=
  ⟨rfl, rfl⟩

/-- Claim C6 (amended): the reset polarity assertion checks every
literal of the resolved frame input segment, before the placement and
declared-PI filters: if no literal there is a complemented reset the
assertion cannot fire, and if some literal is a complemented reset
(with all variable ids inside the placement table, so the loop is not
killed earlier by the table range assertion) the call dies on the reset
assertion. -/
theorem claim_C6_reset_assert (p : Pdr_Man_t) (s : Pdr_Set_t) (rest : List Pdr_Set_t) :
    ((∀ lit ∈ inputLits (resolveStartFrame s rest).2,
        ¬(Abc_Lit2Var lit = 1 ∧ Abc_LitIsCompl lit = true)) →
      (Pdr_ManOblToProgram p (s :: rest)).2 ≠ ExtractOutcome.stopResetCompl) ∧
    ((∃ lit ∈ inputLits (resolveStartFrame s rest).2,
        Abc_Lit2Var lit = 1 ∧ Abc_LitIsCompl lit = true) →
      (∀ lit ∈ inputLits (resolveStartFrame s rest).2,
        Abc_Lit2Var lit < p.vPIs2Imem.length) →
      (Pdr_ManOblToProgram p (s :: rest)).2 = ExtractOutcome.stopResetCompl) := by
  constructor
  · intro hall h
    rw [oblToProgram_snd_eq] at h
    cases hE : extractLoop p (inputLits (resolveStartFrame s rest).2) [] with
    | okSeq kept => rw [hE] at h; cases h
    | stopResetCompl => exact extractLoop_no_resetCompl p _ [] hall hE
    | stopRange => rw [hE] at h; cases h
  · intro hex hrange
    rw [oblToProgram_snd_eq, extractLoop_resetCompl p _ [] hex hrange]

/-- Witness for the amended C6: a true-polarity reset frame does not
fire the assertion, a complemented one does. -/
theorem claim_C6_reset_assert_witness :
    (Pdr_ManOblToProgram pA [sRst]).2 ≠ ExtractOutcome.stopResetCompl ∧
    (Pdr_ManOblToProgram pA [sRstCompl]).2 = ExtractOutcome.stopResetCompl :=
  ⟨(claim_C6_reset_assert pA sRst []).1 (by decide),
   (claim_C6_reset_assert pA sRstCompl []).2 (by decide) (by decide)⟩

/-- Claim C10: on a successful extraction the input segment of the
returned program is exactly the subsequence (List.filter, order
preserving) of the resolved frame input literals passing the
valid-placement and declared-PI filter, and the whole call result is
independent of whatever the scratch vector vPis held before the call
(it is cleared at entry). -/
theorem claim_C10_extracted_sequence (p : Pdr_Man_t) (s : Pdr_Set_t)
    (rest : List Pdr_Set_t) (prog : Pdr_Set_t)
    (h : (Pdr_ManOblToProgram p (s :: rest)).2 = ExtractOutcome.okProg prog) :
    inputLits prog = (inputLits (resolveStartFrame s rest).2).filter (keptLitB p) ∧
    ∀ v, Pdr_ManOblToProgram { p with vPis := v } (s :: rest) =
      Pdr_ManOblToProgram p (s :: rest) :=
  ⟨(oblToProgram_ok p s rest prog h).2, fun v => oblToProgram_vPis_clear p v _⟩

/-- Witness for C10: the mixed frame keeps exactly its declared, placed
literal. -/
theorem claim_C10_extracted_sequence_witness :
    inputLits sKept = (inputLits (resolveStartFrame sAB []).2).filter (keptLitB pA) :=
  (claim_C10_extracted_sequence pA sAB [] sKept (by rfl)).1

/-- Claim C7: every register / PI mapping query checks its index against
the tables it reads before any access: an out-of-range argument makes
the call die on an assertion (none) instead of reading past a table,
and an in-range argument (meeting the nonnegativity side conditions the
code also asserts) reads the table within bounds and yields a value.
For Pdr_ManRegCopy the range assertion lives inside Vec_IntEntry. -/
theorem claim_C7_mapping_queries (p : Pdr_Man_t) (i : Nat) :
    (p.vReg2Inst.length ≤ i → Pdr_ManRegInstId p i = none) ∧
    (i < p.vReg2Inst.length → Pdr_ManRegInstId p i = p.vReg2Inst[i]?) ∧
    (p.vPIs2Imem.length ≤ i →
      Pdr_ManPiInstId p i = none ∧ Pdr_ManPiInstBit p i = none) ∧
    (∀ e, p.vPIs2Imem[i]? = some e → 0 ≤ e →
      (Pdr_ManPiInstId p i).isSome = true ∧ (Pdr_ManPiInstBit p i).isSome = true) ∧
    (p.vReg2Inst.length ≤ i →
      Pdr_ManRegInstBit p i = none ∧ Pdr_ManIsRegInst p i = none) ∧
    (i < p.vReg2Inst.length → (Pdr_ManIsRegInst p i).isSome = true) ∧
    (i < p.vReg2Inst.length → p.vReg2PI.length ≤ i → Pdr_ManRegInstBit p i = none) ∧
    (i < p.vReg2Inst.length → ∀ e, p.vReg2PI[i]? = some e → 0 ≤ e →
      e.toNat < p.vPIs2Imem.length → (Pdr_ManRegInstBit p i).isSome = true) ∧
    (p.vReg2Copy.length ≤ i → Pdr_ManRegCopy p i = none) ∧
    (i < p.vReg2Copy.length → Pdr_ManRegCopy p i = p.vReg2Copy[i]?) := by
  refine ⟨?_, ?_, ?_, ?_, ?_, ?_, ?_, ?_, ?_, ?_⟩
  · intro h
    unfold Pdr_ManRegInstId
    rw [if_neg (by omega)]
  · intro h
    unfold Pdr_ManRegInstId
    rw [if_pos h]
    rfl
  · intro h
    constructor
    · unfold Pdr_ManPiInstId
      rw [if_neg (by omega)]
    · unfold Pdr_ManPiInstBit
      rw [if_neg (by omega)]
  · intro e he he0
    have hlt : i < p.vPIs2Imem.length := (List.getElem?_eq_some_iff.mp he).1
    constructor
    · unfold Pdr_ManPiInstId
      rw [if_pos hlt, show Vec_IntEntry p.vPIs2Imem i = some e from he]
      show (if e < 0 then none else some (e.toNat / p.instLen)).isSome = true
      rw [if_neg (by omega)]
      rfl
    · unfold Pdr_ManPiInstBit
      rw [if_pos hlt, show Vec_IntEntry p.vPIs2Imem i = some e from he]
      show (if e < 0 then none else some (e.toNat % p.instLen)).isSome = true
      rw [if_neg (by omega)]
      rfl
  · intro h
    constructor
    · unfold Pdr_ManRegInstBit
      rw [if_neg (by omega)]
    · unfold Pdr_ManIsRegInst
      rw [if_neg (by omega)]
  · intro h
    unfold Pdr_ManIsRegInst
    rw [if_pos h]
    obtain ⟨e, he⟩ : ∃ e, Vec_IntEntry p.vReg2Inst i = some e :=
      ⟨_, List.getElem?_eq_getElem h⟩
    rw [he]
    rfl
  · intro h hle
    unfold Pdr_ManRegInstBit
    rw [if_pos h]
    have he : Vec_IntEntry p.vReg2PI i = none := List.getElem?_eq_none hle
    rw [he]
  · intro h e he he0 hlt2
    unfold Pdr_ManRegInstBit
    rw [if_pos h, show Vec_IntEntry p.vReg2PI i = some e from he]
    show (if 0 ≤ e ∧ e.toNat < p.vPIs2Imem.length then
        (match Vec_IntEntry p.vPIs2Imem e.toNat with
         | none => none
         | some imemb => some (Int.tmod imemb (Int.ofNat p.instLen)))
        else none).isSome = true
    rw [if_pos ⟨he0, hlt2⟩]
    obtain ⟨e2, he2⟩ : ∃ e2, Vec_IntEntry p.vPIs2Imem e.toNat = some e2 :=
      ⟨_, List.getElem?_eq_getElem hlt2⟩
    rw [he2]
    rfl
  · intro h
    exact List.getElem?_eq_none h
  · intro h
    rfl

/-- Witness for C7 on a concrete manager: out-of-range calls die,
in-range calls return values. -/
theorem claim_C7_mapping_queries_witness :
    Pdr_ManRegInstId pA 5 = none ∧
    Pdr_ManRegInstId pA 0 = some 3 ∧
    (Pdr_ManPiInstId pA 2).isSome = true ∧
    Pdr_ManRegCopy pA 3 = none ∧
    (Pdr_ManRegInstBit pA 1).isSome = true :=
  ⟨(claim_C7_mapping_queries pA 5).1 (by decide),
   ((claim_C7_mapping_queries pA 0).2.1 (by decide)).trans (by rfl),
   ((claim_C7_mapping_queries pA 2).2.2.2.1 1 (by rfl) (by decide)).1,
   (claim_C7_mapping_queries pA 3).2.2.2.2.2.2.2.2.1 (by decide),
   (claim_C7_mapping_queries pA 1).2.2.2.2.2.2.2.1 (by decide) 2 (by rfl)
     (by decide) (by decide)⟩

/-- Claim C8: for a PI id whose placement entry is a valid (nonnegative)
index, Pdr_ManPiInstId returns that index divided by instLen and
Pdr_ManPiInstBit returns it reduced modulo instLen. -/
theorem claim_C8_pi_div_mod (p : Pdr_Man_t) (piId : Nat) (e : Int)
    (he : p.vPIs2Imem[piId]? = some e) (he0 : 0 ≤ e) (_hpos : 0 < p.instLen) :
    Pdr_ManPiInstId p piId = some (e.toNat / p.instLen) ∧
    Pdr_ManPiInstBit p piId = some (e.toNat % p.instLen) := by
  have hlt : piId < p.vPIs2Imem.length := (List.getElem?_eq_some_iff.mp he).1
  constructor
  · unfold Pdr_ManPiInstId
    rw [if_pos hlt, show Vec_IntEntry p.vPIs2Imem piId = some e from he]
    show (if e < 0 then none else some (e.toNat / p.instLen)) =
      some (e.toNat / p.instLen)
    rw [if_neg (by omega)]
  · unfold Pdr_ManPiInstBit
    rw [if_pos hlt, show Vec_IntEntry p.vPIs2Imem piId = some e from he]
    show (if e < 0 then none else some (e.toNat % p.instLen)) =
      some (e.toNat % p.instLen)
    rw [if_neg (by omega)]

/-- Witness for C8: placement 1 with instLen 2 gives instruction 0,
bit 1. -/
theorem claim_C8_pi_div_mod_witness :
    Pdr_ManPiInstId pA 2 = some 0 ∧ Pdr_ManPiInstBit pA 2 = some 1 :=
  claim_C8_pi_div_mod pA 2 1 (by rfl) (by decide) (by decide)
